import Mathlib

/-!
Verification of the snapshot-history and deterministic-replay core of the
rx pixel editor, as a shallow embedding of the relevant functions of
src/resources.rs. Byte buffers are lists of naturals, machine indices are
naturals, and fallible paths are explicit constructors.
-/

namespace Rx

/-! ### Compression codec

Modelled from the spec: the repository delegates compression of snapshot
pixel buffers to the external snap crate (Compressed::from and
Compressed::decompress in src/resources.rs are thin wrappers whose body is
not part of this repository). The spec contract is a deterministic,
lossless, byte-oriented codec with decompress (compress x) == x for all
byte sequences including the empty one. We realise the contract with an
executable run-length codec over bytes: runs are capped at 255 so every
emitted count is itself a byte. -/

def rlePairs : List Nat → List (Nat × Nat)
  | [] => []
  | b :: rest =>
    match rlePairs rest with
    | [] => [(1, b)]
    | (n, c) :: tail =>
      if c = b ∧ n < 255 then (n + 1, c) :: tail
      else (1, b) :: (n, c) :: tail

def pairsBytes : List (Nat × Nat) → List Nat
  | [] => []
  | (n, c) :: rest => n :: c :: pairsBytes rest

def expandPairs : List (Nat × Nat) → List Nat
  | [] => []
  | (n, c) :: rest => List.replicate n c ++ expandPairs rest

def compress (input : List Nat) : List Nat :=
  pairsBytes (rlePairs input)

def decompress : List Nat → List Nat
  | n :: c :: rest => List.replicate n c ++ decompress rest
  | _ => []

lemma decompress_pairsBytes (ps : List (Nat × Nat)) :
    decompress (pairsBytes ps) = expandPairs ps := by
  induction ps with
  | nil => simp [pairsBytes, decompress, expandPairs]
  | cons p rest ih =>
    obtain ⟨n, c⟩ := p
    simp [pairsBytes, decompress, expandPairs, ih]

lemma expandPairs_rlePairs (bs : List Nat) :
    expandPairs (rlePairs bs) = bs := by
  induction bs with
  | nil => simp [rlePairs, expandPairs]
  | cons b rest ih =>
    cases h : rlePairs rest with
    | nil =>
      have hrest : rest = [] := by
        simpa [h, expandPairs] using ih.symm
      simp [rlePairs, h, expandPairs, hrest]
    | cons p tail =>
      obtain ⟨n, c⟩ := p
      by_cases hc : c = b ∧ n < 255
      · have hr : List.replicate n c ++ expandPairs tail = rest := by
          simpa [h, expandPairs] using ih
        rw [hc.1] at hr
        simp [rlePairs, h, hc, expandPairs, List.replicate_succ, hc.1, hr]
      · have : List.replicate n c ++ expandPairs tail = rest := by
          simpa [h, expandPairs] using ih
        simp [rlePairs, h, hc, expandPairs, this]

lemma decompress_compress (bs : List Nat) :
    decompress (compress bs) = bs := by
  rw [compress, decompress_pairsBytes, expandPairs_rlePairs]

/-! ### Hash and its text decoding

Embedding of struct Hash and impl FromStr for Hash in src/resources.rs.
The input string is its byte sequence; 97..102 and 48..57 are the byte
values of a..f and 0..9. The Rust body ends with
array.copy_from_slice(hash.as_slice()) against a fixed 4-byte array, a
call that panics whenever the parsed byte count differs from 4; that
control path is the crash constructor below. -/

structure Hash where
  bytes : List Nat
deriving DecidableEq, Repr

def isHexByte (c : Nat) : Bool :=
  (97 ≤ c && c ≤ 102) || (48 ≤ c && c ≤ 57)

def hexVal (c : Nat) : Except String Nat :=
  if 97 ≤ c ∧ c ≤ 102 then .ok (c - 97 + 10)
  else if 48 ≤ c ∧ c ≤ 57 then .ok (c - 48)
  else .error ("invalid hex character " ++ toString c)

def parsePairs (input : List Nat) : List Nat → Except String (List Nat)
  | [] => .ok []
  | [_] => .error ("invalid hex string: " ++ toString input)
  | l :: r :: rest =>
    match hexVal l with
    | .error m => .error m
    | .ok lv =>
      match hexVal r with
      | .error m => .error m
      | .ok rv =>
        match parsePairs input rest with
        | .error m => .error m
        | .ok tail => .ok ((lv * 16 + rv) :: tail)

inductive ParseOutcome where
  | ok (h : Hash)
  | err (msg : String)
  | crash
deriving DecidableEq, Repr

def Hash.from_str (input : List Nat) : ParseOutcome :=
  match parsePairs input input with
  | .error m => .err m
  | .ok bs => if bs.length = 4 then .ok ⟨bs⟩ else .crash

/-! ### Replay verifier

Embedding of Resources::record_screen and Resources::verify_screen. The
hash function itself (MeowHasher truncated to 4 bytes, an external crate)
is an abstract parameter. screens is the expected-hash queue with the
front at the head of the list; push_back appends at the tail. -/

inductive VerifyResult where
  | Stale (h : Hash)
  | Okay (h : Hash)
  | Failure (actual expected : Hash)
  | EOF
deriving DecidableEq, Repr

structure Resources where
  screens : List Hash
  last_verified : Option Hash
deriving DecidableEq, Repr

def Resources.record_screen (hash : List Nat → Hash) (r : Resources)
    (data : List Nat) : Resources :=
  let h := hash data
  match r.screens.getLast? with
  | some b =>
    if b ≠ h then { r with screens := r.screens ++ [h] } else r
  | none => { r with screens := r.screens ++ [h] }

def Resources.verify_screen (hash : List Nat → Hash) (r : Resources)
    (data : List Nat) : VerifyResult × Resources :=
  let actual := hash data
  if some actual = r.last_verified then (.Stale actual, r)
  else
    let r1 : Resources := { r with last_verified := some actual }
    match r1.screens with
    | expected :: rest =>
      if actual = expected then (.Okay actual, { r1 with screens := rest })
      else (.Failure actual expected, { r1 with screens := rest })
    | [] => (.EOF, r1)

def Resources.replay (hash : List Nat → Hash) (r : Resources) :
    List (List Nat) → List VerifyResult × Resources
  | [] => ([], r)
  | d :: ds =>
    let step := r.verify_screen hash d
    let rest := step.2.replay hash ds
    (step.1 :: rest.1, rest.2)

/-! ### Snapshots and view history

Embedding of Snapshot, SnapshotId and ViewResources from
src/resources.rs. SnapshotId is its underlying natural. Pixel buffers are
byte lists; the Bgra8 alignment of the live cache is a byte-preserving
reinterpretation and is elided. Snapshot::new stores the compressed
buffer; Snapshot.raw embeds Snapshot::pixels (decompress on demand). The
NonEmpty sequence is a plain list whose nonemptiness is proved below. -/

structure Snapshot where
  id : Nat
  fw : Nat
  fh : Nat
  nframes : Nat
  size : Nat
  pixels : List Nat
deriving DecidableEq, Repr

def Snapshot.new (id : Nat) (pixels : List Nat) (fw fh : Nat)
    (nframes : Nat) : Snapshot :=
  { id := id, fw := fw, fh := fh, nframes := nframes,
    size := pixels.length, pixels := compress pixels }

def Snapshot.width (s : Snapshot) : Nat := s.fw * s.nframes

def Snapshot.height (s : Snapshot) : Nat := s.fh

def Snapshot.raw (s : Snapshot) : List Nat := decompress s.pixels

structure ViewResources where
  snapshots : List Snapshot
  snapshot : Nat
  pixels : List Nat
deriving DecidableEq, Repr

def ViewResources.new (pixels : List Nat) (fw fh : Nat) : ViewResources :=
  { snapshots := [Snapshot.new 0 pixels fw fh 1],
    snapshot := 0,
    pixels := pixels }

def ViewResources.push_snapshot (v : ViewResources) (pixels : List Nat)
    (fw fh : Nat) (nframes : Nat) : ViewResources :=
  let v1 :=
    if v.snapshot ≠ v.snapshots.length - 1 then
      let ss := v.snapshots.take (v.snapshot + 1)
      { v with snapshots := ss, snapshot := ss.length - 1 }
    else v
  let cursor := v1.snapshot + 1
  { snapshots := v1.snapshots ++ [Snapshot.new cursor pixels fw fh nframes],
    snapshot := cursor,
    pixels := pixels }

def ViewResources.prev_snapshot (v : ViewResources) :
    Option Snapshot × ViewResources :=
  if v.snapshot = 0 then (none, v)
  else
    match v.snapshots[v.snapshot - 1]? with
    | some s =>
      (some s, { v with snapshot := v.snapshot - 1, pixels := s.raw })
    | none => (none, v)

def ViewResources.next_snapshot (v : ViewResources) :
    Option Snapshot × ViewResources :=
  match v.snapshots[v.snapshot + 1]? with
  | some s =>
    (some s, { v with snapshot := v.snapshot + 1, pixels := s.raw })
  | none => (none, v)

inductive HistOp where
  | push (pixels : List Nat) (fw fh : Nat) (nframes : Nat)
  | undo
  | redo
deriving DecidableEq, Repr

def applyOp (v : ViewResources) : HistOp → ViewResources
  | .push p fw fh n => v.push_snapshot p fw fh n
  | .undo => (v.prev_snapshot).2
  | .redo => (v.next_snapshot).2

def applyOps (v : ViewResources) (ops : List HistOp) : ViewResources :=
  ops.foldl applyOp v

/-! ### GIF frame delay

Embedding of the delay computation at the top of
ResourceManager::save_view_gif: milliseconds divided by 10, then clamped
to the u16 maximum. -/

def gifFrameDelay (millis : Nat) : Nat :=
  Nat.min (millis / 10) 65535

/-! ### History invariants -/

def HistInv (v : ViewResources) : Prop :=
  v.snapshots ≠ [] ∧ v.snapshot < v.snapshots.length

def IdInv (v : ViewResources) : Prop :=
  v.snapshots.map Snapshot.id = List.range v.snapshots.length

lemma raw_new (id : Nat) (p : List Nat) (fw fh n : Nat) :
    (Snapshot.new id p fw fh n).raw = p := by
  simp [Snapshot.new, Snapshot.raw, decompress_compress]

lemma push_snapshot_eq (v : ViewResources) (p : List Nat) (fw fh n : Nat)
    (h : v.snapshot < v.snapshots.length) :
    v.push_snapshot p fw fh n =
      { snapshots := v.snapshots.take (v.snapshot + 1) ++
          [Snapshot.new (v.snapshot + 1) p fw fh n],
        snapshot := v.snapshot + 1,
        pixels := p } := by
  unfold ViewResources.push_snapshot
  by_cases hc : v.snapshot = v.snapshots.length - 1
  · have hlen : v.snapshot + 1 = v.snapshots.length := by omega
    simp [hc, hlen, List.take_length]
    omega
  · have hle : v.snapshot + 1 ≤ v.snapshots.length := h
    have hlen : (v.snapshots.take (v.snapshot + 1)).length = v.snapshot + 1 := by
      simp [List.length_take, Nat.min_eq_left hle]
    simp [hc, hlen]

lemma histInv_new (p : List Nat) (fw fh : Nat) :
    HistInv (ViewResources.new p fw fh) := by
  constructor <;> simp [ViewResources.new]

lemma idInv_new (p : List Nat) (fw fh : Nat) :
    IdInv (ViewResources.new p fw fh) := by
  simp [ViewResources.new, IdInv, Snapshot.new, List.range_succ]

lemma histInv_push (v : ViewResources) (p : List Nat) (fw fh n : Nat)
    (hv : HistInv v) : HistInv (v.push_snapshot p fw fh n) := by
  rw [push_snapshot_eq v p fw fh n hv.2]
  have hle : v.snapshot + 1 ≤ v.snapshots.length := hv.2
  constructor
  · simp
  · simp [List.length_take, Nat.min_eq_left hle]

lemma idInv_push (v : ViewResources) (p : List Nat) (fw fh n : Nat)
    (hv : HistInv v) (hid : IdInv v) : IdInv (v.push_snapshot p fw fh n) := by
  rw [push_snapshot_eq v p fw fh n hv.2]
  have hle : v.snapshot + 1 ≤ v.snapshots.length := hv.2
  unfold IdInv at hid ⊢
  simp only [List.map_append, List.map_take, hid, List.map_cons, List.map_nil,
    List.length_append, List.length_take, List.length_cons, List.length_nil,
    List.take_range, Snapshot.new]
  simp [List.range_succ]
  omega

lemma prev_snapshots_eq (v : ViewResources) :
    ((v.prev_snapshot).2).snapshots = v.snapshots := by
  unfold ViewResources.prev_snapshot
  by_cases h0 : v.snapshot = 0
  · simp [h0]
  · cases hg : v.snapshots[v.snapshot - 1]? <;> simp [h0, hg]

lemma next_snapshots_eq (v : ViewResources) :
    ((v.next_snapshot).2).snapshots = v.snapshots := by
  unfold ViewResources.next_snapshot
  cases hg : v.snapshots[v.snapshot + 1]? <;> simp [hg]

lemma histInv_undo (v : ViewResources) (hv : HistInv v) :
    HistInv ((v.prev_snapshot).2) := by
  unfold ViewResources.prev_snapshot
  by_cases h0 : v.snapshot = 0
  · simpa [h0] using hv
  · cases hg : v.snapshots[v.snapshot - 1]? with
    | none => simpa [h0, hg] using hv
    | some s =>
      refine ⟨by simpa [h0, hg] using hv.1, ?_⟩
      have := hv.2
      simp [h0, hg]
      omega

lemma histInv_redo (v : ViewResources) (hv : HistInv v) :
    HistInv ((v.next_snapshot).2) := by
  unfold ViewResources.next_snapshot
  cases hg : v.snapshots[v.snapshot + 1]? with
  | none => simpa [hg] using hv
  | some s =>
    have hlt : v.snapshot + 1 < v.snapshots.length := by
      rcases List.getElem?_eq_some.mp hg with ⟨hlt, _⟩
      exact hlt
    exact ⟨by simpa [hg] using hv.1, by simpa [hg] using hlt⟩

lemma histInv_applyOp (v : ViewResources) (op : HistOp) (hv : HistInv v) :
    HistInv (applyOp v op) := by
  cases op with
  | push p fw fh n => exact histInv_push v p fw fh n hv
  | undo => exact histInv_undo v hv
  | redo => exact histInv_redo v hv

lemma idInv_applyOp (v : ViewResources) (op : HistOp) (hv : HistInv v)
    (hid : IdInv v) : IdInv (applyOp v op) := by
  cases op with
  | push p fw fh n => exact idInv_push v p fw fh n hv hid
  | undo => unfold IdInv at hid ⊢; rwa [applyOp, prev_snapshots_eq]
  | redo => unfold IdInv at hid ⊢; rwa [applyOp, next_snapshots_eq]

lemma histInv_applyOps (v : ViewResources) (ops : List HistOp)
    (hv : HistInv v) : HistInv (applyOps v ops) := by
  induction ops generalizing v with
  | nil => simpa [applyOps] using hv
  | cons op rest ih =>
    have h1 : HistInv (applyOp v op) := histInv_applyOp v op hv
    simpa [applyOps, List.foldl_cons] using ih (applyOp v op) h1

lemma idInv_applyOps (v : ViewResources) (ops : List HistOp)
    (hv : HistInv v) (hid : IdInv v) : IdInv (applyOps v ops) := by
  induction ops generalizing v with
  | nil => simpa [applyOps] using hid
  | cons op rest ih =>
    exact (by
      simpa [applyOps, List.foldl_cons] using
        ih (applyOp v op) (histInv_applyOp v op hv)
          (idInv_applyOp v op hv hid))

def maxSnapshotId (l : List Snapshot) : Nat :=
  (l.map Snapshot.id).foldl Nat.max 0

lemma foldl_max_range (k : Nat) : (List.range k).foldl Nat.max 0 = k - 1 := by
  induction k with
  | zero => simp
  | succ n ih =>
    rw [List.range_succ, List.foldl_append, ih]
    simp [Nat.max_eq_right (Nat.sub_le n 1)]

/-! ### Claim theorems -/

/-- C8: the snapshot compression codec is a lossless deterministic round
trip: decompressing the result of compressing any byte buffer, the empty
buffer included, yields exactly that buffer. -/
theorem C8_compress_roundtrip :
    decompress (compress []) = ([] : List Nat) ∧
    ∀ bs : List Nat, decompress (compress bs) = bs :=
  ⟨decompress_compress [], decompress_compress⟩

/-- C5: a view history created from an initial pixel buffer keeps, after
every finite sequence of push, undo and redo calls, at least one snapshot
and a cursor strictly below the snapshot count. -/
theorem C5_history_invariant (p : List Nat) (fw fh : Nat)
    (ops : List HistOp) :
    1 ≤ (applyOps (ViewResources.new p fw fh) ops).snapshots.length ∧
    (applyOps (ViewResources.new p fw fh) ops).snapshot <
      (applyOps (ViewResources.new p fw fh) ops).snapshots.length := by
  have h := histInv_applyOps (ViewResources.new p fw fh) ops
    (histInv_new p fw fh)
  exact ⟨List.length_pos.mpr h.1, h.2⟩

/-- C10: in every reachable history state the snapshot stored at position
i carries SnapshotId i — the id assigned on push is the post-push cursor
index — so after a truncating push the id previously held by a discarded
snapshot is re-assigned to the newly pushed one. -/
theorem C10_id_equals_index (p : List Nat) (fw fh : Nat)
    (ops : List HistOp) (i : Nat) (s : Snapshot)
    (h : (applyOps (ViewResources.new p fw fh) ops).snapshots[i]? = some s) :
    s.id = i := by
  have hid := idInv_applyOps (ViewResources.new p fw fh) ops
    (histInv_new p fw fh) (idInv_new p fw fh)
  unfold IdInv at hid
  rcases List.getElem?_eq_some.mp h with ⟨hi, hs⟩
  have hmap : (List.map Snapshot.id
      (applyOps (ViewResources.new p fw fh) ops).snapshots)[i]? = some i := by
    rw [hid]
    rw [List.getElem?_eq_getElem (by simpa using hi)]
    simp [List.getElem_range]
  rw [List.getElem?_map, h] at hmap
  simpa using hmap

/-- C10 witness: after one push onto a fresh one-snapshot history, the
snapshot at position 1 has id 1. -/
theorem C10_id_equals_index_witness :
    (Snapshot.new 1 [1] 1 1 1).id = 1 :=
  C10_id_equals_index [0] 1 1 [HistOp.push [1] 1 1 1] 1
    (Snapshot.new 1 [1] 1 1 1) (by decide)

/-- C3: in every reachable history state the snapshot ids are exactly
0, 1, ..., len-1 in order (strictly increasing and dense from 0), and a
further push appends a snapshot whose id is one more than the maximum id
among the snapshots that survive its truncation step. -/
theorem C3_id_monotone_dense (p : List Nat) (fw fh : Nat)
    (ops : List HistOp) (q : List Nat) (gw gh m : Nat) :
    (applyOps (ViewResources.new p fw fh) ops).snapshots.map Snapshot.id =
      List.range (applyOps (ViewResources.new p fw fh) ops).snapshots.length ∧
    ((applyOps (ViewResources.new p fw fh) ops).push_snapshot
        q gw gh m).snapshots.getLast? =
      some (Snapshot.new
        (maxSnapshotId
          ((applyOps (ViewResources.new p fw fh) ops).snapshots.take
            ((applyOps (ViewResources.new p fw fh) ops).snapshot + 1)) + 1)
        q gw gh m) := by
  have hv := histInv_applyOps (ViewResources.new p fw fh) ops
    (histInv_new p fw fh)
  have hid := idInv_applyOps (ViewResources.new p fw fh) ops
    (histInv_new p fw fh) (idInv_new p fw fh)
  unfold IdInv at hid
  refine ⟨hid, ?_⟩
  rw [push_snapshot_eq _ _ _ _ _ hv.2]
  have hmax : maxSnapshotId
      ((applyOps (ViewResources.new p fw fh) ops).snapshots.take
        ((applyOps (ViewResources.new p fw fh) ops).snapshot + 1)) =
      (applyOps (ViewResources.new p fw fh) ops).snapshot := by
    unfold maxSnapshotId
    rw [List.map_take, hid, List.take_range,
      Nat.min_eq_left hv.2, foldl_max_range]
    omega
  simp [hmax]

/-- C9: the animation export frame delay is the supplied milliseconds
divided by 10 (hundredths of a second), clamped to the 16-bit maximum
65535. -/
theorem C9_gif_frame_delay (millis : Nat) :
    gifFrameDelay millis ≤ 65535 ∧
    (millis / 10 ≤ 65535 → gifFrameDelay millis = millis / 10) ∧
    (65535 < millis / 10 → gifFrameDelay millis = 65535) := by
  unfold gifFrameDelay
  refine ⟨Nat.min_le_right _ _, ?_, ?_⟩
  · intro h
    exact Nat.min_eq_left h
  · intro h
    exact Nat.min_eq_right (Nat.le_of_lt h)

/-- C9 witness: 123456 ms stays below the clamp and becomes 12345
hundredths; 999999999 ms is clamped to 65535. -/
theorem C9_gif_frame_delay_witness :
    gifFrameDelay 123456 = 123456 / 10 ∧ gifFrameDelay 999999999 = 65535 :=
  ⟨(C9_gif_frame_delay 123456).2.1 (by decide),
    (C9_gif_frame_delay 999999999).2.2 (by decide)⟩

/-! ### Concrete history scenarios -/

def branchHist (p1 p2 p3 p4 : List Nat) (fw fh n : Nat) : ViewResources :=
  applyOps (ViewResources.new p1 fw fh)
    [HistOp.push p2 fw fh n, HistOp.push p3 fw fh n, HistOp.undo,
     HistOp.push p4 fw fh n]

lemma branchHist_eq (p1 p2 p3 p4 : List Nat) (fw fh n : Nat) :
    branchHist p1 p2 p3 p4 fw fh n =
      { snapshots := [Snapshot.new 0 p1 fw fh 1, Snapshot.new 1 p2 fw fh n,
          Snapshot.new 2 p4 fw fh n],
        snapshot := 2,
        pixels := p4 } := by
  simp [branchHist, applyOps, applyOp, ViewResources.new,
    ViewResources.push_snapshot, ViewResources.prev_snapshot,
    Snapshot.raw, Snapshot.new, decompress_compress]

lemma redo_noop (v : ViewResources)
    (h : v.snapshots.length ≤ v.snapshot + 1) : v.next_snapshot = (none, v) := by
  unfold ViewResources.next_snapshot
  have hn : v.snapshots[v.snapshot + 1]? = none := List.getElem?_eq_none h
  simp [hn]

lemma redos_noop (v : ViewResources)
    (h : v.snapshots.length ≤ v.snapshot + 1) :
    ∀ k : Nat, applyOps v (List.replicate k HistOp.redo) = v := by
  intro k
  induction k with
  | zero => simp [applyOps]
  | succ j ih =>
    have hstep : applyOp v HistOp.redo = v := by
      simp [applyOp, redo_noop v h]
    calc applyOps v (List.replicate (j + 1) HistOp.redo)
        = applyOps (applyOp v HistOp.redo) (List.replicate j HistOp.redo) := by
          simp [applyOps, List.replicate_succ]
      _ = v := by rw [hstep]; exact ih

/-- C4: pushing p2, p3 onto a history whose initial snapshot is p1, then
one undo, then pushing p4, leaves exactly the snapshots of p1, p2, p4
with the cursor on p4; p3 is discarded and no sequence of redo calls can
reach it. -/
theorem C4_branch_truncation (p1 p2 p3 p4 : List Nat) (fw fh n : Nat)
    (h1 : p3 ≠ p1) (h2 : p3 ≠ p2) (h4 : p3 ≠ p4) :
    (branchHist p1 p2 p3 p4 fw fh n).snapshots.map Snapshot.raw =
      [p1, p2, p4] ∧
    (branchHist p1 p2 p3 p4 fw fh n).snapshot = 2 ∧
    (branchHist p1 p2 p3 p4 fw fh n).pixels = p4 ∧
    ∀ k : Nat,
      (applyOps (branchHist p1 p2 p3 p4 fw fh n)
        (List.replicate k HistOp.redo)).pixels ≠ p3 ∧
      ∀ s ∈ (applyOps (branchHist p1 p2 p3 p4 fw fh n)
        (List.replicate k HistOp.redo)).snapshots, s.raw ≠ p3 := by
  rw [branchHist_eq]
  have hfix := redos_noop
    { snapshots := [Snapshot.new 0 p1 fw fh 1, Snapshot.new 1 p2 fw fh n,
        Snapshot.new 2 p4 fw fh n],
      snapshot := 2,
      pixels := p4 } (by simp)
  refine ⟨by simp [raw_new], rfl, rfl, ?_⟩
  intro k
  rw [hfix k]
  refine ⟨fun hc => h4 hc.symm, ?_⟩
  intro s hs
  simp only [List.mem_cons, List.mem_singleton] at hs
  rcases hs with hs | hs | hs | hs
  · rw [hs, raw_new]; exact fun hc => h1 hc.symm
  · rw [hs, raw_new]; exact fun hc => h2 hc.symm
  · rw [hs, raw_new]; exact fun hc => h4 hc.symm
  · cases hs

/-- C4 witness: the branch-truncation scenario at concrete one-byte
buffers 0, 1, 2, 3. -/
theorem C4_branch_truncation_witness :
    (branchHist [0] [1] [2] [3] 1 1 1).snapshots.map Snapshot.raw =
      [[0], [1], [3]] ∧
    (applyOps (branchHist [0] [1] [2] [3] 1 1 1)
      (List.replicate 3 HistOp.redo)).pixels ≠ [2] :=
  ⟨(C4_branch_truncation [0] [1] [2] [3] 1 1 1
      (by decide) (by decide) (by decide)).1,
    ((C4_branch_truncation [0] [1] [2] [3] 1 1 1
      (by decide) (by decide) (by decide)).2.2.2 3).1⟩

def triHist (p0 p1 p2 p3 : List Nat) (fw fh n : Nat) : ViewResources :=
  applyOps (ViewResources.new p0 fw fh)
    [HistOp.push p1 fw fh n, HistOp.push p2 fw fh n, HistOp.push p3 fw fh n]

lemma triHist_eq (p0 p1 p2 p3 : List Nat) (fw fh n : Nat) :
    triHist p0 p1 p2 p3 fw fh n =
      { snapshots := [Snapshot.new 0 p0 fw fh 1, Snapshot.new 1 p1 fw fh n,
          Snapshot.new 2 p2 fw fh n, Snapshot.new 3 p3 fw fh n],
        snapshot := 3,
        pixels := p3 } := by
  simp [triHist, applyOps, applyOp, ViewResources.new,
    ViewResources.push_snapshot, Snapshot.new]

/-- C6: after pushing p1, p2, p3, two undos restore the live pixels seen
right after pushing p1, and two redos then restore the live pixels seen
after pushing p3; undo on a fresh history and redo at the tail are no-ops
returning nothing. -/
theorem C6_undo_redo_symmetry (p0 p1 p2 p3 : List Nat) (fw fh n : Nat) :
    (applyOps (triHist p0 p1 p2 p3 fw fh n)
        [HistOp.undo, HistOp.undo]).pixels =
      (applyOps (ViewResources.new p0 fw fh) [HistOp.push p1 fw fh n]).pixels ∧
    (applyOps (triHist p0 p1 p2 p3 fw fh n)
        [HistOp.undo, HistOp.undo, HistOp.redo, HistOp.redo]).pixels =
      (triHist p0 p1 p2 p3 fw fh n).pixels ∧
    (ViewResources.new p0 fw fh).prev_snapshot =
      (none, ViewResources.new p0 fw fh) ∧
    (triHist p0 p1 p2 p3 fw fh n).next_snapshot =
      (none, triHist p0 p1 p2 p3 fw fh n) := by
  rw [triHist_eq]
  refine ⟨?_, ?_, ?_, ?_⟩
  · simp [applyOps, applyOp, ViewResources.prev_snapshot,
      ViewResources.push_snapshot, ViewResources.new, Snapshot.raw,
      Snapshot.new, decompress_compress]
  · simp [applyOps, applyOp, ViewResources.prev_snapshot,
      ViewResources.next_snapshot, Snapshot.raw, Snapshot.new,
      decompress_compress]
  · simp [ViewResources.prev_snapshot, ViewResources.new]
  · simp [ViewResources.next_snapshot]

/-- C7: record_screen appends nothing when the frame hash equals the back
of the expected queue, appends exactly that hash when the back differs or
the queue is empty, and never touches last_verified; hence recording the
same frame twice in a row appends only one hash. -/
theorem C7_record_dedup (hash : List Nat → Hash) (r : Resources)
    (d : List Nat) :
    (r.screens.getLast? = some (hash d) → r.record_screen hash d = r) ∧
    (r.screens.getLast? ≠ some (hash d) →
      (r.record_screen hash d).screens = r.screens ++ [hash d] ∧
      (r.record_screen hash d).last_verified = r.last_verified) ∧
    (r.record_screen hash d).record_screen hash d = r.record_screen hash d := by
  refine ⟨?_, ?_, ?_⟩
  · intro h
    simp [Resources.record_screen, h]
  · intro h
    cases hb : r.screens.getLast? with
    | none => simp [Resources.record_screen, hb]
    | some b =>
      have hbd : b ≠ hash d := by
        intro hc
        exact h (by rw [hb, hc])
      simp [Resources.record_screen, hb, hbd]
  · cases hb : r.screens.getLast? with
    | none =>
      simp [Resources.record_screen, hb, List.getLast?_concat]
    | some b =>
      by_cases hbd : b = hash d
      · simp [Resources.record_screen, hb, hbd]
      · simp [Resources.record_screen, hb, hbd, List.getLast?_concat]

/-- C7 witness: recording frame bytes 0 twice into an empty queue appends
exactly one hash. -/
theorem C7_record_dedup_witness :
    (Resources.record_screen (fun l => Hash.mk l)
        (Resources.mk [] none) [0]).screens = [Hash.mk [0]] ∧
    Resources.record_screen (fun l => Hash.mk l)
        (Resources.record_screen (fun l => Hash.mk l)
          (Resources.mk [] none) [0]) [0] =
      Resources.record_screen (fun l => Hash.mk l) (Resources.mk [] none) [0] :=
  ⟨((C7_record_dedup (fun l => Hash.mk l) (Resources.mk [] none) [0]).2.1
      (by decide)).1,
    (C7_record_dedup (fun l => Hash.mk l) (Resources.mk [] none) [0]).2.2⟩

lemma verify_not_stale_nil (hash : List Nat → Hash) (r : Resources)
    (d : List Nat) (hne : ¬ (some (hash d) = r.last_verified))
    (hs : r.screens = []) :
    r.verify_screen hash d =
      (VerifyResult.EOF, Resources.mk [] (some (hash d))) := by
  simp [Resources.verify_screen, hne, hs]

lemma verify_not_stale_cons (hash : List Nat → Hash) (r : Resources)
    (d : List Nat) (e : Hash) (rest : List Hash)
    (hne : ¬ (some (hash d) = r.last_verified))
    (hs : r.screens = e :: rest) :
    r.verify_screen hash d =
      if hash d = e then
        (VerifyResult.Okay (hash d), Resources.mk rest (some (hash d)))
      else
        (VerifyResult.Failure (hash d) e,
          Resources.mk rest (some (hash d))) := by
  by_cases hde : hash d = e
  · have hne2 : ¬ (some e = r.last_verified) := by
      rw [← hde]
      exact hne
    simp [Resources.verify_screen, hne, hne2, hs, hde]
  · simp [Resources.verify_screen, hne, hs, hde]

/-- C1: verify_screen reports Stale and leaves all state unchanged when
the frame hash equals last_verified_hash; otherwise it records the hash
as last verified, pops the head of the expected queue, and reports EOF on
an empty queue, Okay on a matching head and Failure on a mismatch. In
particular, replaying frames A, A, B, C against the recorded queue of
hashes of A, B, C yields Okay, Stale, Okay, Okay, and replaying A, A, X,
C, D yields Okay, Stale, Failure(hash X, hash B), Okay, EOF. -/
theorem C1_verify_screen (hash : List Nat → Hash) (r : Resources)
    (d A B C X D0 : List Nat) :
    (r.last_verified = some (hash d) →
      r.verify_screen hash d = (VerifyResult.Stale (hash d), r)) ∧
    (r.last_verified ≠ some (hash d) →
      (r.verify_screen hash d).2.last_verified = some (hash d) ∧
      (r.verify_screen hash d).2.screens = r.screens.tail ∧
      (r.screens = [] → (r.verify_screen hash d).1 = VerifyResult.EOF) ∧
      ∀ e rest, r.screens = e :: rest →
        (hash d = e →
          (r.verify_screen hash d).1 = VerifyResult.Okay (hash d)) ∧
        (hash d ≠ e →
          (r.verify_screen hash d).1 = VerifyResult.Failure (hash d) e)) ∧
    (hash A ≠ hash B → hash B ≠ hash C →
      (Resources.replay hash
          (Resources.mk [hash A, hash B, hash C] none) [A, A, B, C]).1 =
        [VerifyResult.Okay (hash A), VerifyResult.Stale (hash A),
         VerifyResult.Okay (hash B), VerifyResult.Okay (hash C)]) ∧
    (hash X ≠ hash A → hash X ≠ hash B → hash C ≠ hash X →
      hash D0 ≠ hash C →
      (Resources.replay hash
          (Resources.mk [hash A, hash B, hash C] none) [A, A, X, C, D0]).1 =
        [VerifyResult.Okay (hash A), VerifyResult.Stale (hash A),
         VerifyResult.Failure (hash X) (hash B), VerifyResult.Okay (hash C),
         VerifyResult.EOF]) := by
  refine ⟨?_, ?_, ?_, ?_⟩
  · intro h
    simp [Resources.verify_screen, h]
  · intro h
    have hne : ¬ (some (hash d) = r.last_verified) := fun hc => h hc.symm
    refine ⟨?_, ?_, ?_, ?_⟩
    · cases hs : r.screens with
      | nil => rw [verify_not_stale_nil hash r d hne hs]
      | cons e rest =>
        rw [verify_not_stale_cons hash r d e rest hne hs]
        by_cases hde : hash d = e <;> simp [hde]
    · cases hs : r.screens with
      | nil =>
        rw [verify_not_stale_nil hash r d hne hs]
        simp
      | cons e rest =>
        rw [verify_not_stale_cons hash r d e rest hne hs]
        by_cases hde : hash d = e <;> simp [hde]
    · intro hs
      rw [verify_not_stale_nil hash r d hne hs]
    · intro e rest hs
      rw [verify_not_stale_cons hash r d e rest hne hs]
      constructor
      · intro hde
        simp [hde]
      · intro hde
        simp [hde]
  · intro hAB hBC
    simp [Resources.replay, Resources.verify_screen, hAB, hBC,
      Ne.symm hAB, Ne.symm hBC]
  · intro hXA hXB hCX hDC
    simp [Resources.replay, Resources.verify_screen, hXA, hXB, hCX, hDC]

/-- C1 witness: both replay traces evaluated at concrete one-byte frames
with the identity hash. -/
theorem C1_verify_screen_witness :
    (Resources.replay (fun l => Hash.mk l)
        (Resources.mk [Hash.mk [0], Hash.mk [1], Hash.mk [2]] none)
        [[0], [0], [1], [2]]).1 =
      [VerifyResult.Okay (Hash.mk [0]), VerifyResult.Stale (Hash.mk [0]),
       VerifyResult.Okay (Hash.mk [1]), VerifyResult.Okay (Hash.mk [2])] ∧
    (Resources.replay (fun l => Hash.mk l)
        (Resources.mk [Hash.mk [0], Hash.mk [1], Hash.mk [2]] none)
        [[0], [0], [3], [2], [4]]).1 =
      [VerifyResult.Okay (Hash.mk [0]), VerifyResult.Stale (Hash.mk [0]),
       VerifyResult.Failure (Hash.mk [3]) (Hash.mk [1]),
       VerifyResult.Okay (Hash.mk [2]), VerifyResult.EOF] :=
  ⟨(C1_verify_screen (fun l => Hash.mk l) (Resources.mk [] none)
      [9] [0] [1] [2] [3] [4]).2.2.1 (by decide) (by decide),
    (C1_verify_screen (fun l => Hash.mk l) (Resources.mk [] none)
      [9] [0] [1] [2] [3] [4]).2.2.2 (by decide) (by decide) (by decide)
      (by decide)⟩

/-! ### Hash text decoding lemmas -/

lemma hexVal_ok_of (c : Nat) (h : isHexByte c = true) :
    ∃ v, hexVal c = Except.ok v := by
  have h' : (97 ≤ c ∧ c ≤ 102) ∨ (48 ≤ c ∧ c ≤ 57) := by
    simpa [isHexByte] using h
  rcases h' with h1 | h1
  · exact ⟨_, by rw [hexVal, if_pos h1]⟩
  · have h2 : ¬ (97 ≤ c ∧ c ≤ 102) := by omega
    exact ⟨_, by rw [hexVal, if_neg h2, if_pos h1]⟩

lemma hexVal_error_of (c : Nat) (h : isHexByte c = false) :
    hexVal c = Except.error ("invalid hex character " ++ toString c) := by
  have h' : ¬ (97 ≤ c ∧ c ≤ 102) ∧ ¬ (48 ≤ c ∧ c ≤ 57) := by
    constructor <;> · intro hc; simp [isHexByte, hc.1, hc.2] at h
  rw [hexVal, if_neg h'.1, if_neg h'.2]

lemma parsePairs_ok (full : List Nat) (l : List Nat) :
    (∀ c ∈ l, isHexByte c = true) → l.length % 2 = 0 →
    ∃ bs, parsePairs full l = Except.ok bs ∧ 2 * bs.length = l.length := by
  induction l using parsePairs.induct full with
  | case1 => intro _ _; exact ⟨[], rfl, rfl⟩
  | case2 x => intro _ hp; simp at hp
  | case3 a b rest m hx =>
    intro hhex _
    rcases hexVal_ok_of a (hhex a (by simp)) with ⟨v, hv⟩
    rw [hv] at hx
    cases hx
  | case4 a b rest lv h1 m hx =>
    intro hhex _
    rcases hexVal_ok_of b (hhex b (by simp)) with ⟨v, hv⟩
    rw [hv] at hx
    cases hx
  | case5 a b rest lv h1 rv h2 m h3 ih =>
    intro hhex hpar
    have hr : ∀ c ∈ rest, isHexByte c = true := by
      intro c hc
      exact hhex c (by simp [hc])
    have hp : rest.length % 2 = 0 := by
      simp [List.length_cons] at hpar
      omega
    rcases ih hr hp with ⟨bs, hok, _⟩
    rw [hok] at h3
    cases h3
  | case6 a b rest lv h1 rv h2 t h3 ih =>
    intro hhex hpar
    have hr : ∀ c ∈ rest, isHexByte c = true := by
      intro c hc
      exact hhex c (by simp [hc])
    have hp : rest.length % 2 = 0 := by
      simp [List.length_cons] at hpar
      omega
    rcases ih hr hp with ⟨bs, hok, hlen⟩
    rw [h3] at hok
    cases hok
    refine ⟨(lv * 16 + rv) :: t, ?_, ?_⟩
    · simp [parsePairs, h1, h2, h3]
    · simp [List.length_cons]
      omega

lemma parsePairs_err_odd (full : List Nat) (l : List Nat) :
    l.length % 2 = 1 → ∃ m, parsePairs full l = Except.error m := by
  induction l using parsePairs.induct full with
  | case1 => intro hp; simp at hp
  | case2 x => intro _; exact ⟨_, rfl⟩
  | case3 a b rest m hx => intro _; exact ⟨m, by simp [parsePairs, hx]⟩
  | case4 a b rest lv h1 m hx =>
    intro _
    exact ⟨m, by simp [parsePairs, h1, hx]⟩
  | case5 a b rest lv h1 rv h2 m h3 ih =>
    intro _
    exact ⟨m, by simp [parsePairs, h1, h2, h3]⟩
  | case6 a b rest lv h1 rv h2 t h3 ih =>
    intro hpar
    have hp : rest.length % 2 = 1 := by
      simp [List.length_cons] at hpar
      omega
    rcases ih hp with ⟨m, hm⟩
    rw [hm] at h3
    cases h3

lemma parsePairs_odd_hex (full : List Nat) (l : List Nat) :
    (∀ c ∈ l, isHexByte c = true) → l.length % 2 = 1 →
    parsePairs full l =
      Except.error ("invalid hex string: " ++ toString full) := by
  induction l using parsePairs.induct full with
  | case1 => intro _ hp; simp at hp
  | case2 x => intro _ _; rfl
  | case3 a b rest m hx =>
    intro hhex _
    rcases hexVal_ok_of a (hhex a (by simp)) with ⟨v, hv⟩
    rw [hv] at hx
    cases hx
  | case4 a b rest lv h1 m hx =>
    intro hhex _
    rcases hexVal_ok_of b (hhex b (by simp)) with ⟨v, hv⟩
    rw [hv] at hx
    cases hx
  | case5 a b rest lv h1 rv h2 m h3 ih =>
    intro hhex hpar
    have hr : ∀ c ∈ rest, isHexByte c = true := by
      intro c hc
      exact hhex c (by simp [hc])
    have hp : rest.length % 2 = 1 := by
      simp [List.length_cons] at hpar
      omega
    have := ih hr hp
    simp [parsePairs, h1, h2, this]
  | case6 a b rest lv h1 rv h2 t h3 ih =>
    intro hhex hpar
    have hr : ∀ c ∈ rest, isHexByte c = true := by
      intro c hc
      exact hhex c (by simp [hc])
    have hp : rest.length % 2 = 1 := by
      simp [List.length_cons] at hpar
      omega
    have := ih hr hp
    rw [this] at h3
    cases h3

lemma parsePairs_err_bad (full : List Nat) (l : List Nat) :
    (∃ c ∈ l, isHexByte c = false) →
    ∃ m, parsePairs full l = Except.error m := by
  induction l using parsePairs.induct full with
  | case1 => intro hc; simp at hc
  | case2 x => intro _; exact ⟨_, rfl⟩
  | case3 a b rest m hx => intro _; exact ⟨m, by simp [parsePairs, hx]⟩
  | case4 a b rest lv h1 m hx =>
    intro _
    exact ⟨m, by simp [parsePairs, h1, hx]⟩
  | case5 a b rest lv h1 rv h2 m h3 ih =>
    intro _
    exact ⟨m, by simp [parsePairs, h1, h2, h3]⟩
  | case6 a b rest lv h1 rv h2 t h3 ih =>
    rintro ⟨c, hc, hbad⟩
    simp only [List.mem_cons] at hc
    rcases hc with hc | hc | hc
    · rw [← hc] at h1
      rw [hexVal_error_of c hbad] at h1
      cases h1
    · rw [← hc] at h2
      rw [hexVal_error_of c hbad] at h2
      cases h2
    · rcases ih ⟨c, hc, hbad⟩ with ⟨m, hm⟩
      rw [hm] at h3
      cases h3

/-- C2 counterexample: the two-character all-hex input "ab" (bytes 97,
98) has total length 2, not 8, yet from_str reaches the copy_from_slice
panic (crash) instead of returning an explicit error. -/
theorem C2_hash_parse_counterexample :
    Hash.from_str [97, 98] = ParseOutcome.crash := by decide

/-- C2 as amended: parsing an 8-character lowercase-hex string yields the
4-byte hash; odd-length input yields an explicit error echoing the whole
input, and a non-hex character yields an explicit error; but even-length
all-hex input whose total length is not 8 crashes (copy_from_slice length
mismatch) instead of returning an error. -/
theorem C2_hash_parse_amended (input : List Nat) :
    ((∀ c ∈ input, isHexByte c = true) → input.length = 8 →
      ∃ h : Hash, Hash.from_str input = ParseOutcome.ok h ∧
        h.bytes.length = 4) ∧
    (input.length % 2 = 1 →
      ∃ m, Hash.from_str input = ParseOutcome.err m) ∧
    ((∀ c ∈ input, isHexByte c = true) → input.length % 2 = 1 →
      Hash.from_str input =
        ParseOutcome.err ("invalid hex string: " ++ toString input)) ∧
    ((∃ c ∈ input, isHexByte c = false) →
      ∃ m, Hash.from_str input = ParseOutcome.err m) ∧
    ((∀ c ∈ input, isHexByte c = true) → input.length % 2 = 0 →
      input.length ≠ 8 → Hash.from_str input = ParseOutcome.crash) := by
  refine ⟨?_, ?_, ?_, ?_, ?_⟩
  · intro hhex hlen
    rcases parsePairs_ok input input hhex (by omega) with ⟨bs, hok, hbs⟩
    have hb4 : bs.length = 4 := by omega
    exact ⟨⟨bs⟩, by simp [Hash.from_str, hok, hb4], hb4⟩
  · intro hodd
    rcases parsePairs_err_odd input input hodd with ⟨m, hm⟩
    exact ⟨m, by simp [Hash.from_str, hm]⟩
  · intro hhex hodd
    have hm := parsePairs_odd_hex input input hhex hodd
    simp [Hash.from_str, hm]
  · intro hbad
    rcases parsePairs_err_bad input input hbad with ⟨m, hm⟩
    exact ⟨m, by simp [Hash.from_str, hm]⟩
  · intro hhex heven hne
    rcases parsePairs_ok input input hhex heven with ⟨bs, hok, hbs⟩
    have hb4 : bs.length ≠ 4 := by omega
    simp [Hash.from_str, hok, hb4]

/-- C2 witness: the 8-character input "deadbeef" parses to a 4-byte hash,
and the 4-character all-hex input "abab" crashes. -/
theorem C2_hash_parse_amended_witness :
    (∃ h : Hash, Hash.from_str [100, 101, 97, 100, 98, 101, 101, 102] =
        ParseOutcome.ok h ∧ h.bytes.length = 4) ∧
    Hash.from_str [97, 98, 97, 98] = ParseOutcome.crash :=
  ⟨(C2_hash_parse_amended [100, 101, 97, 100, 98, 101, 101, 102]).1
      (by decide) (by decide),
    (C2_hash_parse_amended [97, 98, 97, 98]).2.2.2.2
      (by decide) (by decide) (by decide)⟩

end Rx
